import Mathlib

/-!
Verification of the gitlint git-context core (gitlint/git.py).

The Python source is shallowly embedded: Python strings are Lean Strings,
Python string methods are modelled charwise over List Char, fallible code
returns Except, and the external git tool (the sh library) is modelled as a
record of responses passed to the repository-based builder.
-/

set_option maxRecDepth 10000

/-- Line-boundary characters recognized by Python str.splitlines. -/
def isLineBreak (c : Char) : Bool :=
  c = '\n' || c = '\r' || c = '\x0b' || c = '\x0c' || c = '\x1c' || c = '\x1d' ||
  c = '\x1e' || c = '\u0085' || c = '\u2028' || c = '\u2029'

/-- Drop every carriage return that is immediately followed by a newline, so
that a carriage-return-newline pair acts as a single line boundary, as in
Python str.splitlines. Since such pairs can never overlap, greedy pairing is
unambiguous. -/
def collapseCRLF : List Char → List Char
  | [] => []
  | c :: rest =>
    if c = '\r' ∧ rest.head? = some '\n' then collapseCRLF rest
    else c :: collapseCRLF rest

/-- Split at every single line-boundary character, without producing a final
empty line for a trailing boundary. -/
def splitBreaksCore : List Char → List (List Char)
  | [] => []
  | c :: rest =>
    if isLineBreak c then
      [] :: splitBreaksCore rest
    else
      match splitBreaksCore rest with
      | [] => [[c]]
      | l :: ls => (c :: l) :: ls

/-- Charwise model of Python str.splitlines: split at every line boundary,
treating a carriage return immediately followed by a newline as one boundary,
and do not produce a final empty line for a trailing boundary. -/
def splitlinesCore (cs : List Char) : List (List Char) :=
  splitBreaksCore (collapseCRLF cs)

/-- Model of Python str.splitlines on Lean strings. -/
def splitlines (s : String) : List String :=
  (splitlinesCore s.toList).map String.mk

/-- Charwise model of Python str.split(sep) for a single-character separator:
every occurrence of the separator is a split point, empty pieces are kept,
and the empty string yields one empty piece. -/
def splitOnCharCore (sep : Char) : List Char → List (List Char)
  | [] => [[]]
  | c :: rest =>
    if c = sep then
      [] :: splitOnCharCore sep rest
    else
      match splitOnCharCore sep rest with
      | [] => [[c]]
      | l :: ls => (c :: l) :: ls

/-- Model of Python str.split(sep) on Lean strings, single-character separator. -/
def splitOnChar (sep : Char) (s : String) : List String :=
  (splitOnCharCore sep s.toList).map String.mk

/-- Whitespace characters stripped by Python bytes.strip() and used as the
separator class of str.split() with no argument. -/
def isPySpace (c : Char) : Bool :=
  c = ' ' || c = '\t' || c = '\n' || c = '\r' || c = '\x0b' || c = '\x0c'

/-- Charwise split at every whitespace character, keeping empty pieces. -/
def splitSpaceCore : List Char → List (List Char)
  | [] => [[]]
  | c :: rest =>
    if isPySpace c then
      [] :: splitSpaceCore rest
    else
      match splitSpaceCore rest with
      | [] => [[c]]
      | l :: ls => (c :: l) :: ls

/-- Model of Python str.split() with no argument: split on whitespace runs and
drop the empty pieces. -/
def pySplit (s : String) : List String :=
  ((splitSpaceCore s.toList).filter (fun l => !l.isEmpty)).map String.mk

/-- Model of Python str.strip() / bytes.strip(): remove leading and trailing
whitespace. -/
def pyStrip (s : String) : String :=
  String.mk (((s.toList.dropWhile isPySpace).reverse.dropWhile isPySpace).reverse)

/-- Model of Python str.startswith. -/
def startswith (s pre : String) : Bool :=
  pre.toList.isPrefixOf s.toList

/-- Charwise substring test, modelling the Python membership test on strings. -/
def listInfix (needle : List Char) : List Char → Bool
  | [] => needle.isEmpty
  | c :: rest => needle.isPrefixOf (c :: rest) || listInfix needle rest

/-- Model of the Python containment test needle in hay on strings. -/
def substrOf (needle hay : String) : Bool :=
  listInfix needle.toList hay.toList

/-- Model of Python list.index wrapped in try/except ValueError: the index of
the first occurrence of the target, or none when absent. -/
def listIndex (target : String) : List String → Option Nat
  | [] => none
  | l :: rest => if l == target then some 0 else (listIndex target rest).map (· + 1)

/-- Model of the Python call out.replace applied with arguments a newline and
the empty string: remove every newline character. -/
def removeNewlines (s : String) : String :=
  String.mk (s.toList.filter (fun c => c ≠ '\n'))

/-- Join char-level lines with a newline separator; used to reason about the
Lean-level String.intercalate on lines. -/
def intercalateNL : List (List Char) → List Char
  | [] => []
  | [l] => l
  | l :: ls => l ++ '\n' :: intercalateNL ls

/-- Drop a single trailing empty line, mirroring what splitting the rejoined
lines loses. -/
def dropTrailingEmpty : List (List Char) → List (List Char)
  | [] => []
  | [l] => if l.isEmpty then [] else [l]
  | l :: ls => l :: dropTrailingEmpty ls

/-- Modelled from the spec: trailing-newline normalization, removing a single
trailing newline character when present. -/
def stripTrailingNewline (s : String) : String :=
  if s.toList.getLast? = some '\n' then String.mk s.toList.dropLast else s

/-- The cut line used by git: the comment char followed by the literal marker
(git.py line 53). -/
def CUTLINE (commentchar : String) : String :=
  commentchar ++ " ------------------------ >8 ------------------------"

/-- Commit message value object (git.py class GitCommitMessage). -/
structure GitCommitMessage where
  original : String
  full : String
  title : String
  body : List String
deriving DecidableEq, Repr

/-- Embedding of GitCommitMessage.from_full_message (git.py lines 61-73),
parameterized by the configured comment char (COMMENT_CHAR, an external git
config lookup defaulting to the hash character). -/
def GitCommitMessage.from_full_message (commentchar : String) (commit_msg_str : String) :
    GitCommitMessage :=
  let all_lines := splitlines commit_msg_str
  let cutline_index := listIndex (CUTLINE commentchar) all_lines
  let considered := match cutline_index with
    | some i => all_lines.take i
    | none => all_lines
  let lines := considered.filter (fun line => !(startswith line commentchar))
  let full := String.intercalate "\n" lines
  let title := if lines.length > 0 then lines.headD "" else ""
  let body := if lines.length > 1 then lines.tail else []
  { original := commit_msg_str, full := full, title := title, body := body }

/-- Structural equality of commit messages over all four fields, embedding
GitCommitMessage's equality method (git.py lines 84-86). -/
def GitCommitMessage.eq (a b : GitCommitMessage) : Bool :=
  a.original == b.original && a.full == b.full && a.title == b.title && a.body == b.body

/-- Commit entity (git.py class GitCommit). The Python object holds a reference
to its owning GitContext object; object identity of that context is modelled by
the numeric contextRef field. The date is kept as the raw date string, since
date parsing (arrow) is an external collaborator. -/
structure GitCommit where
  contextRef : Nat
  message : GitCommitMessage
  sha : Option String
  date : Option String
  author_name : Option String
  author_email : Option String
  parents : List String
  is_merge_commit : Bool
  changed_files : List String
deriving DecidableEq, Repr

/-- Commit equality (git.py lines 118-124): structural over message, sha,
author name, author email, date, parents, merge flag and changed files; the
context back-reference is skipped. -/
def GitCommit.eq (a b : GitCommit) : Bool :=
  GitCommitMessage.eq a.message b.message && a.sha == b.sha &&
  a.author_name == b.author_name && a.author_email == b.author_email &&
  a.date == b.date && a.parents == b.parents &&
  a.is_merge_commit == b.is_merge_commit && a.changed_files == b.changed_files

/-- Context entity (git.py class GitContext): an ordered list of commits. -/
structure GitContext where
  commits : List GitCommit
deriving DecidableEq, Repr

/-- Elementwise equality of commit lists with GitCommit.eq, modelling the
Python list equality used on the commits attribute. -/
def commitListEq : List GitCommit → List GitCommit → Bool
  | [], [] => true
  | a :: arest, b :: brest => GitCommit.eq a b && commitListEq arest brest
  | _, _ => false

/-- Context equality (git.py lines 212-213): structural over the commit list. -/
def GitContext.eq (a b : GitContext) : Bool :=
  commitListEq a.commits b.commits

/-- Embedding of GitContext.from_commit_msg (git.py lines 135-148). The ctxId
argument models the object identity of the freshly allocated context. -/
def GitContext.from_commit_msg (commentchar : String) (ctxId : Nat)
    (commit_msg_str : String) : GitContext :=
  let commit_msg_obj := GitCommitMessage.from_full_message commentchar commit_msg_str
  let is_merge := startswith commit_msg_obj.title "Merge"
  let commit : GitCommit := {
    contextRef := ctxId, message := commit_msg_obj, sha := none, date := none,
    author_name := none, author_email := none, parents := [],
    is_merge_commit := is_merge, changed_files := [] }
  { commits := [commit] }

/-- Outcome of one invocation of the external git tool through sh: captured
stdout, a missing executable, or a non-zero exit with its command and stderr. -/
inductive ShResult where
  | ok : String → ShResult
  | commandNotFound : ShResult
  | errorReturnCode : String → String → ShResult
deriving DecidableEq, Repr

/-- Responses of the external git tool for one repository, indexed by the
commands from_local_repository issues (git.py lines 169, 171, 175, 184). -/
structure GitRepo where
  log_latest : ShResult
  rev_list : String → ShResult
  log_record : String → ShResult
  diff_tree : String → ShResult

/-- Errors raised by the context builders. The valueError-style failure of the
4-tuple unpacking on the header line (git.py line 178) is the malformed-record
error of the specification. -/
inductive GitError where
  | notInstalled : GitError
  | contextError : String → GitError
  | malformedRecord : GitError
deriving DecidableEq, Repr

/-- Embedding of the except ErrorReturnCode handler (git.py lines 202-208). -/
def handle_error_return_code (repository_path full_cmd stderr : String) : GitError :=
  let error_msg := pyStrip stderr
  if substrOf "Not a git repository" error_msg then
    GitError.contextError (repository_path ++ " is not a git repository.")
  else
    GitError.contextError
      ("An error occurred while executing \x27" ++ full_cmd ++ "\x27: " ++ error_msg)

/-- Per-sha body of the loop in GitContext.from_local_repository (git.py lines
173-198): fetch the raw log record, split off and unpack the header line,
split the parents field on single spaces, fetch the changed files and assemble
the commit. A header line without exactly four comma-separated fields raises
the malformed-record error (Python: ValueError from tuple unpacking). -/
def process_sha (commentchar : String) (ctxId : Nat) (repo : GitRepo)
    (repository_path sha : String) : Except GitError GitCommit :=
  match repo.log_record sha with
  | ShResult.commandNotFound => Except.error GitError.notInstalled
  | ShResult.errorReturnCode full_cmd stderr =>
      Except.error (handle_error_return_code repository_path full_cmd stderr)
  | ShResult.ok raw =>
    let raw_commit := splitOnChar '\n' raw
    match splitOnChar ',' (raw_commit.headD "") with
    | [name, email, date, parents] =>
      let commit_msg := String.intercalate "\n" raw_commit.tail
      let commit_parents := splitOnChar ' ' parents
      let commit_is_merge := decide (commit_parents.length > 1)
      match repo.diff_tree sha with
      | ShResult.commandNotFound => Except.error GitError.notInstalled
      | ShResult.errorReturnCode full_cmd stderr =>
          Except.error (handle_error_return_code repository_path full_cmd stderr)
      | ShResult.ok files_out =>
        let changed_files := pySplit files_out
        let commit_msg_obj := GitCommitMessage.from_full_message commentchar commit_msg
        Except.ok {
          contextRef := ctxId, message := commit_msg_obj, sha := some sha,
          date := some date, author_name := some name, author_email := some email,
          parents := commit_parents, is_merge_commit := commit_is_merge,
          changed_files := changed_files }
    | _ => Except.error GitError.malformedRecord

/-- Sequential processing of the resolved sha list: the first failure aborts
the whole run, mirroring exception propagation out of the Python for loop. -/
def process_shas (commentchar : String) (ctxId : Nat) (repo : GitRepo)
    (repository_path : String) : List String → Except GitError (List GitCommit)
  | [] => Except.ok []
  | sha :: rest =>
    match process_sha commentchar ctxId repo repository_path sha with
    | Except.error e => Except.error e
    | Except.ok commit =>
      match process_shas commentchar ctxId repo repository_path rest with
      | Except.error e => Except.error e
      | Except.ok commits => Except.ok (commit :: commits)

/-- Embedding of GitContext.from_local_repository (git.py lines 150-210),
parameterized by the responses of the external git tool. -/
def GitContext.from_local_repository (commentchar : String) (ctxId : Nat)
    (repo : GitRepo) (repository_path : String) (refspec : Option String) :
    Except GitError GitContext :=
  let shaListE : Except GitError (List String) :=
    match refspec with
    | none =>
      match repo.log_latest with
      | ShResult.ok out => Except.ok [removeNewlines out]
      | ShResult.commandNotFound => Except.error GitError.notInstalled
      | ShResult.errorReturnCode full_cmd stderr =>
          Except.error (handle_error_return_code repository_path full_cmd stderr)
    | some r =>
      match repo.rev_list r with
      | ShResult.ok out => Except.ok (pySplit out)
      | ShResult.commandNotFound => Except.error GitError.notInstalled
      | ShResult.errorReturnCode full_cmd stderr =>
          Except.error (handle_error_return_code repository_path full_cmd stderr)
  match shaListE with
  | Except.error e => Except.error e
  | Except.ok sha_list =>
    match process_shas commentchar ctxId repo repository_path sha_list with
    | Except.error e => Except.error e
    | Except.ok commits => Except.ok { commits := commits }

/-! ### Concrete fixtures: tool responses used to exercise the builders -/

/-- Repository whose latest commit has an empty parent field (an initial
commit), with the header line from the specification. -/
def janeRepo : GitRepo where
  log_latest := ShResult.ok "abc123\n"
  rev_list := fun _ => ShResult.ok ""
  log_record := fun _ =>
    ShResult.ok "Jane Doe,jane@x.com,2021-01-01 10:00:00 +0000,\nInitial commit"
  diff_tree := fun _ => ShResult.ok ""

/-- The commit that janeRepo produces. -/
def janeCommit : GitCommit where
  contextRef := 0
  message := { original := "Initial commit", full := "Initial commit",
               title := "Initial commit", body := [] }
  sha := some "abc123"
  date := some "2021-01-01 10:00:00 +0000"
  author_name := some "Jane Doe"
  author_email := some "jane@x.com"
  parents := [""]
  is_merge_commit := false
  changed_files := []

/-- Repository whose latest commit has two space-separated parent shas. -/
def twoParentRepo : GitRepo where
  log_latest := ShResult.ok "abc123\n"
  rev_list := fun _ => ShResult.ok ""
  log_record := fun _ =>
    ShResult.ok "Jane Doe,jane@x.com,2021-01-01 10:00:00 +0000,aaa bbb\nSome merge"
  diff_tree := fun _ => ShResult.ok ""

/-- Repository whose log record header has fewer than 4 comma-separated
fields. -/
def malformedRepo : GitRepo where
  log_latest := ShResult.ok "abc\n"
  rev_list := fun _ => ShResult.ok ""
  log_record := fun _ => ShResult.ok "name,email\nmsg"
  diff_tree := fun _ => ShResult.ok ""

/-- Stderr produced by git when the working directory is not a repository. -/
def notRepoMsg : String :=
  "fatal: Not a git repository (or any of the parent directories): .git\n"

/-- Repository responses for a path that is not a git repository: every
invocation fails with the not-a-repository stderr. -/
def notARepo : GitRepo where
  log_latest := ShResult.errorReturnCode "/usr/bin/git log -1 --pretty=%H" notRepoMsg
  rev_list := fun _ => ShResult.errorReturnCode "/usr/bin/git rev-list" notRepoMsg
  log_record := fun _ => ShResult.errorReturnCode "/usr/bin/git log" notRepoMsg
  diff_tree := fun _ => ShResult.errorReturnCode "/usr/bin/git diff-tree" notRepoMsg

/-- The single commit built by from_commit_msg for the message Merge it. -/
def mergeItCommit : GitCommit where
  contextRef := 1
  message := { original := "Merge it", full := "Merge it", title := "Merge it", body := [] }
  sha := none
  date := none
  author_name := none
  author_email := none
  parents := []
  is_merge_commit := true
  changed_files := []

/-! ### Bridging lemmas between String and List Char -/

theorem toList_mk (cs : List Char) : (String.mk cs).toList = cs := rfl

theorem mk_toList (s : String) : String.mk s.toList = s := rfl

theorem toList_append (a b : String) : (a ++ b).toList = a.toList ++ b.toList :=
  String.data_append a b

/-! ### Joining lines with newlines -/

theorem intercalateNL_pair (l l2 : List Char) (ls : List (List Char)) :
    intercalateNL (l :: l2 :: ls) = l ++ '\n' :: intercalateNL (l2 :: ls) := rfl

theorem intercalateNL_append_line (x y : List Char) (ls : List (List Char)) :
    intercalateNL ((x ++ '\n' :: y) :: ls) = x ++ '\n' :: intercalateNL (y :: ls) := by
  cases ls with
  | nil => rfl
  | cons l ls => simp [intercalateNL_pair, List.append_assoc]

theorem intercalate_go_toList (bs : List String) (a : String) :
    (String.intercalate.go a "\n" bs).toList =
      intercalateNL (a.toList :: bs.map String.toList) := by
  induction bs generalizing a with
  | nil => rfl
  | cons b bs ih =>
    show (String.intercalate.go (a ++ "\n" ++ b) "\n" bs).toList = _
    rw [ih, List.map_cons]
    have hab : (a ++ "\n" ++ b).toList = a.toList ++ '\n' :: b.toList := by
      rw [toList_append, toList_append]; simp [List.append_assoc]
    rw [hab, intercalateNL_append_line, intercalateNL_pair]

theorem intercalate_toList (ls : List String) :
    (String.intercalate "\n" ls).toList = intercalateNL (ls.map String.toList) := by
  cases ls with
  | nil => rfl
  | cons a bs => exact intercalate_go_toList bs a

/-! ### The carriage-return collapse -/

theorem collapseCRLF_of_no_cr (cs : List Char) (h : ∀ c ∈ cs, c ≠ '\r') :
    collapseCRLF cs = cs := by
  induction cs with
  | nil => rfl
  | cons c rest ih =>
    have hc : c ≠ '\r' := h c (List.mem_cons_self c rest)
    have hrest : ∀ d ∈ rest, d ≠ '\r' := fun d hd => h d (List.mem_cons_of_mem c hd)
    rw [collapseCRLF.eq_2, if_neg (by rintro ⟨h1, _⟩; exact hc h1), ih hrest]

/-! ### The single-boundary splitter -/

theorem splitBreaksCore_breakFree (cs : List Char) :
    ∀ l ∈ splitBreaksCore cs, ∀ c ∈ l, isLineBreak c = false := by
  induction cs with
  | nil => intro l hl; simp [splitBreaksCore.eq_1] at hl
  | cons c rest ih =>
    intro l hl d hd
    rw [splitBreaksCore.eq_2] at hl
    by_cases hc : isLineBreak c = true
    · rw [if_pos hc] at hl
      rcases List.mem_cons.mp hl with h1 | h1
      · subst h1; simp at hd
      · exact ih l h1 d hd
    · rw [if_neg hc] at hl
      rcases hrest : splitBreaksCore rest with _ | ⟨l0, ls⟩
      · rw [hrest] at hl
        simp at hl
        subst hl
        simp at hd
        subst hd
        simpa using hc
      · rw [hrest] at hl
        simp only at hl
        rcases List.mem_cons.mp hl with h1 | h1
        · subst h1
          rcases List.mem_cons.mp hd with h2 | h2
          · subst h2; simpa using hc
          · exact ih l0 (by rw [hrest]; exact List.mem_cons_self _ _) d h2
        · exact ih l (by rw [hrest]; exact List.mem_cons_of_mem _ h1) d hd

theorem splitBreaksCore_line (l : List Char) (h : ∀ c ∈ l, isLineBreak c = false) :
    splitBreaksCore l = if l.isEmpty then [] else [l] := by
  induction l with
  | nil => rfl
  | cons c rest ih =>
    have hc : isLineBreak c = false := h c (List.mem_cons_self c rest)
    have hr := ih (fun d hd => h d (List.mem_cons_of_mem c hd))
    rw [splitBreaksCore.eq_2, if_neg (by simp [hc])]
    cases rest with
    | nil => simp [splitBreaksCore.eq_1]
    | cons d rest2 =>
      simp only [List.isEmpty_cons, if_neg] at hr
      rw [hr]
      simp

theorem splitBreaksCore_append (l rest : List Char) (h : ∀ c ∈ l, isLineBreak c = false) :
    splitBreaksCore (l ++ '\n' :: rest) = l :: splitBreaksCore rest := by
  induction l with
  | nil =>
    simp only [List.nil_append]
    rw [splitBreaksCore.eq_2, if_pos (by simp [isLineBreak])]
  | cons c l2 ih =>
    have hc : isLineBreak c = false := h c (List.mem_cons_self _ _)
    have ih2 := ih (fun d hd => h d (List.mem_cons_of_mem c hd))
    rw [List.cons_append, splitBreaksCore.eq_2, if_neg (by simp [hc]), ih2]

theorem splitBreaksCore_cons_ne_nil (c : Char) (rest : List Char) :
    splitBreaksCore (c :: rest) ≠ [] := by
  rw [splitBreaksCore.eq_2]
  by_cases hc : isLineBreak c = true
  · simp [hc]
  · rw [if_neg hc]
    rcases hr : splitBreaksCore rest with _ | ⟨l, ls⟩ <;> simp

theorem intercalateNL_cons_line (c : Char) (l : List Char) (ls : List (List Char)) :
    intercalateNL ((c :: l) :: ls) = c :: intercalateNL (l :: ls) := by
  cases ls with
  | nil => rfl
  | cons l2 ls2 => rfl

theorem dropTrailingEmpty_subset (ls : List (List Char)) (l : List Char)
    (h : l ∈ dropTrailingEmpty ls) : l ∈ ls := by
  induction ls with
  | nil => simpa [dropTrailingEmpty] using h
  | cons x xs ih =>
    cases xs with
    | nil =>
      by_cases hx : x.isEmpty <;> simp [dropTrailingEmpty, hx] at h <;> simp [h]
    | cons y ys =>
      have heq : dropTrailingEmpty (x :: y :: ys) = x :: dropTrailingEmpty (y :: ys) := rfl
      rw [heq] at h
      rcases List.mem_cons.mp h with h1 | h1
      · simp [h1]
      · exact List.mem_cons_of_mem x (ih h1)

theorem splitBreaksCore_intercalate (ls : List (List Char))
    (h : ∀ l ∈ ls, ∀ c ∈ l, isLineBreak c = false) :
    splitBreaksCore (intercalateNL ls) = dropTrailingEmpty ls := by
  induction ls with
  | nil => rfl
  | cons x xs ih =>
    cases xs with
    | nil =>
      have h1 : intercalateNL [x] = x := rfl
      have h2 : dropTrailingEmpty [x] = if x.isEmpty then [] else [x] := rfl
      rw [h1, h2, splitBreaksCore_line x (h x (List.mem_cons_self x []))]
    | cons y ys =>
      rw [intercalateNL_pair,
        splitBreaksCore_append x _ (h x (List.mem_cons_self x (y :: ys))),
        ih (fun l hl => h l (List.mem_cons_of_mem x hl))]
      rfl

theorem mem_intercalateNL (ls : List (List Char)) (c : Char) (hc : c ∈ intercalateNL ls) :
    c = '\n' ∨ ∃ l, l ∈ ls ∧ c ∈ l := by
  induction ls with
  | nil => simp [intercalateNL] at hc
  | cons x xs ih =>
    cases xs with
    | nil => right; exact ⟨x, List.mem_cons_self x [], hc⟩
    | cons y ys =>
      rw [intercalateNL_pair] at hc
      rcases List.mem_append.mp hc with h1 | h1
      · right; exact ⟨x, List.mem_cons_self x (y :: ys), h1⟩
      · rcases List.mem_cons.mp h1 with h2 | h2
        · left; exact h2
        · rcases ih h2 with h3 | ⟨l, hl, hcl⟩
          · left; exact h3
          · right; exact ⟨l, List.mem_cons_of_mem x hl, hcl⟩

theorem no_cr_intercalateNL (ls : List (List Char))
    (h : ∀ l ∈ ls, ∀ c ∈ l, isLineBreak c = false) :
    ∀ c ∈ intercalateNL ls, c ≠ '\r' := by
  intro c hc
  rcases mem_intercalateNL ls c hc with h1 | ⟨l, hl, hcl⟩
  · subst h1; decide
  · intro hcr
    have := h l hl c hcl
    rw [hcr] at this
    simp [isLineBreak] at this

theorem splitlines_intercalate (ls : List String)
    (h : ∀ l ∈ ls, ∀ c ∈ l.toList, isLineBreak c = false) :
    splitlines (String.intercalate "\n" ls) =
      (dropTrailingEmpty (ls.map String.toList)).map String.mk := by
  have hmap : ∀ l ∈ ls.map String.toList, ∀ c ∈ l, isLineBreak c = false := by
    intro l hl c hc
    rcases List.mem_map.mp hl with ⟨s, hs, rfl⟩
    exact h s hs c hc
  unfold splitlines splitlinesCore
  rw [intercalate_toList, collapseCRLF_of_no_cr _ (no_cr_intercalateNL _ hmap),
    splitBreaksCore_intercalate _ hmap]

theorem mem_splitlines_intercalate (ls : List String)
    (h : ∀ l ∈ ls, ∀ c ∈ l.toList, isLineBreak c = false) :
    ∀ l ∈ splitlines (String.intercalate "\n" ls), l ∈ ls := by
  intro l hl
  rw [splitlines_intercalate ls h] at hl
  rcases List.mem_map.mp hl with ⟨cs, hcs, rfl⟩
  have hmem := dropTrailingEmpty_subset _ _ hcs
  rcases List.mem_map.mp hmem with ⟨l2, hl2, rfl⟩
  rw [mk_toList]
  exact hl2

theorem mem_splitlines_breakFree (s : String) :
    ∀ l ∈ splitlines s, ∀ c ∈ l.toList, isLineBreak c = false := by
  intro l hl c hc
  unfold splitlines splitlinesCore at hl
  rcases List.mem_map.mp hl with ⟨cs, hcs, rfl⟩
  rw [toList_mk] at hc
  exact splitBreaksCore_breakFree _ cs hcs c hc

theorem intercalateNL_splitBreaks (cs : List Char)
    (h : ∀ c ∈ cs, isLineBreak c = true → c = '\n') :
    intercalateNL (splitBreaksCore cs) =
      (if cs.getLast? = some '\n' then cs.dropLast else cs) := by
  induction cs with
  | nil => rfl
  | cons c rest ih =>
    have hrest := ih (fun d hd hb => h d (List.mem_cons_of_mem c hd) hb)
    rw [splitBreaksCore.eq_2]
    by_cases hc : isLineBreak c = true
    · have hcn : c = '\n' := h c (List.mem_cons_self c rest) hc
      subst hcn
      rw [if_pos (by decide)]
      cases rest with
      | nil => rfl
      | cons d rest2 =>
        rcases hr : splitBreaksCore (d :: rest2) with _ | ⟨l, ls⟩
        · exact absurd hr (splitBreaksCore_cons_ne_nil d rest2)
        · have hLHS : intercalateNL ([] :: l :: ls) = '\n' :: intercalateNL (l :: ls) := rfl
          rw [hLHS, ← hr, hrest, List.getLast?_cons_cons, List.dropLast_cons₂]
          by_cases hlast : (d :: rest2).getLast? = some '\n'
          · rw [if_pos hlast, if_pos hlast]
          · rw [if_neg hlast, if_neg hlast]
    · have hcn : c ≠ '\n' := by rintro rfl; simp [isLineBreak] at hc
      rw [if_neg hc]
      cases rest with
      | nil =>
        have hempty : splitBreaksCore ([] : List Char) = [] := rfl
        rw [hempty]
        have hgl : ([c] : List Char).getLast? = some c := rfl
        rw [hgl, if_neg (by simpa using hcn)]
        rfl
      | cons d rest2 =>
        rcases hr : splitBreaksCore (d :: rest2) with _ | ⟨l, ls⟩
        · exact absurd hr (splitBreaksCore_cons_ne_nil d rest2)
        · simp only
          rw [intercalateNL_cons_line, ← hr, hrest, List.getLast?_cons_cons,
            List.dropLast_cons₂]
          by_cases hlast : (d :: rest2).getLast? = some '\n'
          · rw [if_pos hlast, if_pos hlast]
          · rw [if_neg hlast, if_neg hlast]

theorem listIndex_of_not_mem (t : String) (ls : List String) (h : t ∉ ls) :
    listIndex t ls = none := by
  induction ls with
  | nil => rfl
  | cons l rest ih =>
    have hl : ¬(l == t) = true := by
      simp only [beq_iff_eq]
      rintro rfl
      exact h (List.mem_cons_self l rest)
    rw [listIndex, if_neg hl, ih (fun hm => h (List.mem_cons_of_mem l hm))]
    rfl

theorem listIndex_first (t : String) (pre post : List String) (h : t ∉ pre) :
    listIndex t (pre ++ t :: post) = some pre.length := by
  induction pre with
  | nil => simp [listIndex]
  | cons l rest ih =>
    have hl : ¬(l == t) = true := by
      simp only [beq_iff_eq]
      rintro rfl
      exact h (List.mem_cons_self l rest)
    rw [List.cons_append, listIndex, if_neg hl,
      ih (fun hm => h (List.mem_cons_of_mem l hm))]
    rfl

theorem startswith_append_self (cc t : String) : startswith (cc ++ t) cc = true := by
  unfold startswith
  rw [toList_append]
  exact List.isPrefixOf_iff_prefix.mpr (List.prefix_append _ _)

theorem startswith_CUTLINE (cc : String) : startswith (CUTLINE cc) cc = true :=
  startswith_append_self cc " ------------------------ >8 ------------------------"

theorem listInfix_of_isPrefixOf (needle hay : List Char) (h : needle.isPrefixOf hay = true) :
    listInfix needle hay = true := by
  cases hay with
  | nil =>
    cases needle with
    | nil => rfl
    | cons c rest => simp [List.isPrefixOf] at h
  | cons c rest => simp [listInfix, h]

theorem listInfix_append_left (needle pre hay : List Char) (h : listInfix needle hay = true) :
    listInfix needle (pre ++ hay) = true := by
  induction pre with
  | nil => simpa using h
  | cons c rest ih => simp [listInfix, ih]

theorem substrOf_append_right (needle a b : String) (h : substrOf needle b = true) :
    substrOf needle (a ++ b) = true := by
  unfold substrOf at h ⊢
  rw [toList_append]
  exact listInfix_append_left _ _ _ h

theorem substrOf_self_append (s t : String) : substrOf s (s ++ t) = true := by
  unfold substrOf
  rw [toList_append]
  exact listInfix_of_isPrefixOf _ _
    (List.isPrefixOf_iff_prefix.mpr (List.prefix_append _ _))

theorem from_full_message_of_not_mem (cc s : String) (h : CUTLINE cc ∉ splitlines s) :
    GitCommitMessage.from_full_message cc s =
      { original := s,
        full := String.intercalate "\n"
          ((splitlines s).filter (fun line => !(startswith line cc))),
        title :=
          if ((splitlines s).filter (fun line => !(startswith line cc))).length > 0 then
            ((splitlines s).filter (fun line => !(startswith line cc))).headD ""
          else "",
        body :=
          if ((splitlines s).filter (fun line => !(startswith line cc))).length > 1 then
            ((splitlines s).filter (fun line => !(startswith line cc))).tail
          else [] } := by
  simp only [GitCommitMessage.from_full_message]
  rw [listIndex_of_not_mem _ _ h]

theorem from_full_message_of_cut (cc s : String) (pre post : List String)
    (hs : splitlines s = pre ++ CUTLINE cc :: post) (hp : CUTLINE cc ∉ pre) :
    GitCommitMessage.from_full_message cc s =
      { original := s,
        full := String.intercalate "\n" (pre.filter (fun line => !(startswith line cc))),
        title :=
          if (pre.filter (fun line => !(startswith line cc))).length > 0 then
            (pre.filter (fun line => !(startswith line cc))).headD ""
          else "",
        body :=
          if (pre.filter (fun line => !(startswith line cc))).length > 1 then
            (pre.filter (fun line => !(startswith line cc))).tail
          else [] } := by
  simp only [GitCommitMessage.from_full_message]
  rw [hs, listIndex_first _ _ _ hp]
  simp only
  rw [List.take_left]

theorem mem_splitlines_intercalate_filter (s : String) (ls : List String)
    (hsub : ∀ l ∈ ls, l ∈ splitlines s) :
    ∀ l ∈ splitlines (String.intercalate "\n" ls), l ∈ ls := by
  apply mem_splitlines_intercalate
  intro l hl c hc
  exact mem_splitlines_breakFree s l (hsub l hl) c hc

theorem title_body_shape (lines : List String) :
    String.intercalate "\n" lines =
      String.intercalate "\n"
        ((if lines.length > 0 then lines.headD "" else "") ::
          (if lines.length > 1 then lines.tail else [])) := by
  cases lines with
  | nil => rfl
  | cons t rest =>
    cases rest with
    | nil => rfl
    | cons b rest2 =>
      rw [if_pos (by simp), if_pos (by simp only [List.length_cons]; omega)]
      rfl

theorem from_full_message_full_title_body (cc s : String) :
    (GitCommitMessage.from_full_message cc s).full =
      String.intercalate "\n" ((GitCommitMessage.from_full_message cc s).title ::
        (GitCommitMessage.from_full_message cc s).body) :=
  title_body_shape _

theorem intercalate_splitlines_roundtrip (s : String)
    (h : ∀ c ∈ s.toList, isLineBreak c = true → c = '\n') :
    String.intercalate "\n" (splitlines s) = stripTrailingNewline s := by
  have hnocr : ∀ c ∈ s.toList, c ≠ '\r' := by
    intro c hc hcr
    have h2 := h c hc
    rw [hcr] at h2
    have h3 : ('\r' : Char) = '\n' := h2 (by decide)
    exact absurd h3 (by decide)
  have hlists : (String.intercalate "\n" (splitlines s)).toList =
      (stripTrailingNewline s).toList := by
    rw [intercalate_toList]
    unfold splitlines splitlinesCore
    rw [List.map_map]
    have hmm : List.map (String.toList ∘ String.mk)
        (splitBreaksCore (collapseCRLF s.toList)) =
        splitBreaksCore (collapseCRLF s.toList) := by
      simp [Function.comp_def]
    rw [hmm, collapseCRLF_of_no_cr _ hnocr, intercalateNL_splitBreaks _ h]
    unfold stripTrailingNewline
    by_cases hl : s.toList.getLast? = some '\n'
    · rw [if_pos hl, if_pos hl]
      rfl
    · rw [if_neg hl, if_neg hl]
  calc String.intercalate "\n" (splitlines s)
      = String.mk (String.intercalate "\n" (splitlines s)).toList := (mk_toList _).symm
    _ = String.mk (stripTrailingNewline s).toList := by rw [hlists]
    _ = stripTrailingNewline s := mk_toList _

theorem process_sha_merge (cc : String) (ctxId : Nat) (repo : GitRepo)
    (repository_path sha : String) (c : GitCommit)
    (h : process_sha cc ctxId repo repository_path sha = Except.ok c) :
    c.is_merge_commit = decide (c.parents.length > 1) := by
  simp only [process_sha] at h
  split at h
  · simp at h
  · simp at h
  · split at h
    · split at h
      · simp at h
      · simp at h
      · injection h with h2
        subst h2
        rfl
    · simp at h

theorem process_shas_merge (cc : String) (ctxId : Nat) (repo : GitRepo)
    (repository_path : String) (shas : List String) (commits : List GitCommit)
    (h : process_shas cc ctxId repo repository_path shas = Except.ok commits) :
    ∀ c ∈ commits, c.is_merge_commit = decide (c.parents.length > 1) := by
  induction shas generalizing commits with
  | nil =>
    simp only [process_shas] at h
    injection h with h2
    subst h2
    intro c hc
    simp at hc
  | cons sha rest ih =>
    simp only [process_shas] at h
    split at h
    · simp at h
    · next commit hcommit =>
      split at h
      · simp at h
      · next commits2 hcommits2 =>
        injection h with h2
        subst h2
        intro c hc
        rcases List.mem_cons.mp hc with h3 | h3
        · subst h3
          exact process_sha_merge cc ctxId repo repository_path sha c hcommit
        · exact ih commits2 hcommits2 c h3

theorem from_local_repository_commits (cc : String) (ctxId : Nat) (repo : GitRepo)
    (repository_path : String) (refspec : Option String) (ctx : GitContext)
    (h : GitContext.from_local_repository cc ctxId repo repository_path refspec =
      Except.ok ctx) :
    ∃ shas, process_shas cc ctxId repo repository_path shas = Except.ok ctx.commits := by
  simp only [GitContext.from_local_repository] at h
  split at h
  · simp at h
  · next sha_list hsha =>
    split at h
    · simp at h
    · next commits hcommits =>
      injection h with h2
      subst h2
      exact ⟨sha_list, hcommits⟩

theorem process_sha_malformed (cc : String) (ctxId : Nat) (repo : GitRepo)
    (repository_path sha raw : String)
    (hrec : repo.log_record sha = ShResult.ok raw)
    (hlen : (splitOnChar ',' ((splitOnChar '\n' raw).headD "")).length < 4) :
    process_sha cc ctxId repo repository_path sha = Except.error GitError.malformedRecord := by
  simp only [process_sha]
  rw [hrec]
  simp only
  split
  · next name email date parents heq =>
    rw [heq] at hlen
    simp at hlen
  · rfl

theorem process_shas_first_malformed (cc : String) (ctxId : Nat) (repo : GitRepo)
    (repository_path sha : String) (rest : List String)
    (hsha : process_sha cc ctxId repo repository_path sha =
      Except.error GitError.malformedRecord) :
    process_shas cc ctxId repo repository_path (sha :: rest) =
      Except.error GitError.malformedRecord := by
  simp only [process_shas]
  rw [hsha]

/-! ### Claim theorems -/

/-- Helper for C2 and C10: when the cut line occurs in the unfiltered line
list, every line of the resulting full message comes from the lines strictly
before the first cut line. -/
theorem full_lines_subset_of_cut (cc s : String) (pre post : List String)
    (hs : splitlines s = pre ++ CUTLINE cc :: post) (hp : CUTLINE cc ∉ pre) :
    ∀ l ∈ splitlines (GitCommitMessage.from_full_message cc s).full, l ∈ pre := by
  intro l hl
  rw [from_full_message_of_cut cc s pre post hs hp] at hl
  have hsub : ∀ l2 ∈ pre.filter (fun line => !(startswith line cc)), l2 ∈ splitlines s := by
    intro l2 hl2
    rw [hs]
    exact List.mem_append.mpr (Or.inl (List.mem_of_mem_filter hl2))
  have hmem := mem_splitlines_intercalate_filter s _ hsub l hl
  exact List.mem_of_mem_filter hmem

/-- Helper for C4: every line of the full message is a line of the original
message that does not start with the comment char. -/
theorem mem_full_lines (cc s : String) :
    ∀ l ∈ splitlines (GitCommitMessage.from_full_message cc s).full,
      l ∈ splitlines s ∧ startswith l cc = false := by
  intro l hl
  simp only [GitCommitMessage.from_full_message] at hl
  have hconsub : ∀ l2 ∈ (match listIndex (CUTLINE cc) (splitlines s) with
      | some i => (splitlines s).take i
      | none => splitlines s), l2 ∈ splitlines s := by
    split
    · intro l2 hl2; exact List.take_subset _ _ hl2
    · intro l2 hl2; exact hl2
  have hsub : ∀ l2 ∈ (match listIndex (CUTLINE cc) (splitlines s) with
      | some i => (splitlines s).take i
      | none => splitlines s).filter (fun line => !(startswith line cc)),
      l2 ∈ splitlines s :=
    fun l2 hl2 => hconsub l2 (List.mem_of_mem_filter hl2)
  have hmem := mem_splitlines_intercalate_filter s _ hsub l hl
  refine ⟨hsub l hmem, ?_⟩
  have := (List.mem_filter.mp hmem).2
  simpa using this

/-- C2: for every input whose unfiltered line list contains the cut line,
the parsed full message is computed only from the lines strictly before the
first cut line (cut-line detection runs before comment stripping), so every
line at or after the cut line is excluded from full, even when no line after
it starts with the comment leader. -/
theorem cut_line_excludes_rest (cc s : String) (pre post : List String)
    (hs : splitlines s = pre ++ CUTLINE cc :: post) (hp : CUTLINE cc ∉ pre) :
    (GitCommitMessage.from_full_message cc s).full =
      String.intercalate "\n" (pre.filter (fun line => !(startswith line cc))) ∧
    ∀ l ∈ splitlines (GitCommitMessage.from_full_message cc s).full, l ∈ pre := by
  constructor
  · rw [from_full_message_of_cut cc s pre post hs hp]
  · exact full_lines_subset_of_cut cc s pre post hs hp

/-- Witness for C2: a message with a cut line followed by non-comment content
keeps only the content before the cut line. -/
theorem cut_line_excludes_rest_witness :
    (GitCommitMessage.from_full_message "#"
      ("hello\n" ++ CUTLINE "#" ++ "\nworld")).full = "hello" := by
  have h := (cut_line_excludes_rest "#" ("hello\n" ++ CUTLINE "#" ++ "\nworld")
    ["hello"] ["world"] (by decide) (by decide)).1
  rw [h]
  decide

/-- C4: the full message is exactly the title followed by the body joined with
newlines, and no line of the full message starts with the comment char or
equals the cut line. -/
theorem full_title_body_invariant (cc s : String) :
    (GitCommitMessage.from_full_message cc s).full =
      String.intercalate "\n" ((GitCommitMessage.from_full_message cc s).title ::
        (GitCommitMessage.from_full_message cc s).body) ∧
    ∀ l ∈ splitlines (GitCommitMessage.from_full_message cc s).full,
      startswith l cc = false ∧ l ≠ CUTLINE cc := by
  constructor
  · exact from_full_message_full_title_body cc s
  · intro l hl
    have h2 := (mem_full_lines cc s l hl).2
    refine ⟨h2, ?_⟩
    rintro rfl
    rw [startswith_CUTLINE cc] at h2
    cases h2

/-- Witness for C4: instantiation of the line property on a message with a
comment line. -/
theorem full_title_body_invariant_witness :
    startswith "t" "#" = false ∧ "t" ≠ CUTLINE "#" :=
  (full_title_body_invariant "#" "t\n#c").2 "t" (by decide)

/-- C5: from_commit_msg succeeds on every string, producing exactly one
commit; on the empty string the commit has an all-empty message, no sha, and
is not a merge commit. -/
theorem from_commit_msg_empty (cc : String) (ctxId : Nat) :
    (∀ s : String, (GitContext.from_commit_msg cc ctxId s).commits.length = 1) ∧
    GitContext.from_commit_msg cc ctxId "" =
      GitContext.mk [GitCommit.mk ctxId (GitCommitMessage.mk "" "" "" [])
        none none none none [] false []] := by
  constructor
  · intro s; rfl
  · rfl

/-- C6: for every commit built by from_commit_msg, the merge flag equals the
title-prefix heuristic; in particular a message titled with Merge yields a
merge commit. -/
theorem from_commit_msg_merge_heuristic (cc : String) (ctxId : Nat) (s : String) :
    (∀ c ∈ (GitContext.from_commit_msg cc ctxId s).commits,
      c.is_merge_commit = startswith c.message.title "Merge") ∧
    ((GitContext.from_commit_msg "#" 0 "Merge branch \x27x\x27\n\nDetails").commits.map
      (fun c => c.is_merge_commit)) = [true] := by
  constructor
  · intro c hc
    simp only [GitContext.from_commit_msg] at hc
    rw [List.mem_singleton] at hc
    subst hc
    rfl
  · decide

/-- Witness for C6: the heuristic instantiated on a concrete merge message. -/
theorem from_commit_msg_merge_heuristic_witness :
    mergeItCommit.is_merge_commit = startswith mergeItCommit.message.title "Merge" :=
  (from_commit_msg_merge_heuristic "#" 1 "Merge it").1 mergeItCommit (by decide)

/-- C7 counterexample: the string with a lone carriage return has no
comment-leader line and no cut line, yet its parsed full message differs from
the input beyond trailing-newline normalization, because Python splitlines
also splits at the carriage return and the parts are rejoined with newlines. -/
theorem parse_full_roundtrip_counterexample :
    ((splitlines "a\rb").all (fun l => !(startswith l "#"))) = true ∧
    CUTLINE "#" ∉ splitlines "a\rb" ∧
    (GitCommitMessage.from_full_message "#" "a\rb").full = "a\nb" ∧
    (GitCommitMessage.from_full_message "#" "a\rb").full ≠ "a\rb" ∧
    (GitCommitMessage.from_full_message "#" "a\rb").full ≠ stripTrailingNewline "a\rb" ∧
    stripTrailingNewline ((GitCommitMessage.from_full_message "#" "a\rb").full) ≠ "a\rb" := by
  decide

/-- C7 amended: for every string whose line-break characters are all plain
newlines, containing no line starting with the comment char and no cut line,
the parsed full message is the input up to removal of one trailing newline,
and the title is the first line. -/
theorem parse_full_roundtrip (cc s : String)
    (hnl : ∀ c ∈ s.toList, isLineBreak c = true → c = '\n')
    (hcomment : ∀ l ∈ splitlines s, startswith l cc = false)
    (hcut : CUTLINE cc ∉ splitlines s) :
    (GitCommitMessage.from_full_message cc s).full = stripTrailingNewline s ∧
    (GitCommitMessage.from_full_message cc s).title = (splitlines s).headD "" := by
  have hof := from_full_message_of_not_mem cc s hcut
  have hfilter : (splitlines s).filter (fun line => !(startswith line cc)) = splitlines s :=
    List.filter_eq_self.mpr (fun l hl => by simp [hcomment l hl])
  rw [hof]
  constructor
  · show String.intercalate "\n" _ = _
    rw [hfilter]
    exact intercalate_splitlines_roundtrip s hnl
  · show (if _ then _ else _) = _
    rw [hfilter]
    cases hsp : splitlines s with
    | nil => rfl
    | cons t rest => simp [List.headD]

/-- Witness for the amended C7 on a concrete newline-only message. -/
theorem parse_full_roundtrip_witness :
    (GitCommitMessage.from_full_message "#" "ti\nbo\n").full =
      stripTrailingNewline "ti\nbo\n" ∧
    (GitCommitMessage.from_full_message "#" "ti\nbo\n").title =
      (splitlines "ti\nbo\n").headD "" :=
  parse_full_roundtrip "#" "ti\nbo\n" (by decide) (by decide) (by decide)

/-- Commit equality as a structural proposition: helper for C8. -/
theorem messageEq_iff (a b : GitCommitMessage) :
    GitCommitMessage.eq a b = true ↔ a = b := by
  unfold GitCommitMessage.eq
  cases a
  cases b
  simp [GitCommitMessage.mk.injEq, Bool.and_eq_true, beq_iff_eq, and_assoc]

/-- Commit equality unfolded to the compared fields: helper for C8. -/
theorem commitEq_iff (a b : GitCommit) :
    GitCommit.eq a b = true ↔
      (a.message = b.message ∧ a.sha = b.sha ∧ a.author_name = b.author_name ∧
       a.author_email = b.author_email ∧ a.date = b.date ∧ a.parents = b.parents ∧
       a.is_merge_commit = b.is_merge_commit ∧ a.changed_files = b.changed_files) := by
  unfold GitCommit.eq
  simp [Bool.and_eq_true, beq_iff_eq, messageEq_iff, and_assoc]

/-- C8: commit equality is structural over message, sha, author name, author
email, date, parents, merge flag and changed files, and ignores the context
back-reference; two contexts built from identical raw inputs (with distinct
context object identities) compare equal, while contexts built from different
commit data never do. -/
theorem context_equality_structural :
    (∀ (c : GitCommit) (r : Nat), GitCommit.eq c { c with contextRef := r } = true) ∧
    (∀ a b : GitCommit, GitCommit.eq a b = true ↔
      (a.message = b.message ∧ a.sha = b.sha ∧ a.author_name = b.author_name ∧
       a.author_email = b.author_email ∧ a.date = b.date ∧ a.parents = b.parents ∧
       a.is_merge_commit = b.is_merge_commit ∧ a.changed_files = b.changed_files)) ∧
    (∀ (cc : String) (id1 id2 : Nat) (s : String),
      GitContext.eq (GitContext.from_commit_msg cc id1 s)
        (GitContext.from_commit_msg cc id2 s) = true) ∧
    (∀ (cc : String) (id1 id2 : Nat) (s t : String), s ≠ t →
      GitContext.eq (GitContext.from_commit_msg cc id1 s)
        (GitContext.from_commit_msg cc id2 t) = false) := by
  refine ⟨?_, commitEq_iff, ?_, ?_⟩
  · intro c r
    rw [commitEq_iff]
    exact ⟨rfl, rfl, rfl, rfl, rfl, rfl, rfl, rfl⟩
  · intro cc id1 id2 s
    simp only [GitContext.from_commit_msg, GitContext.eq, commitListEq, Bool.and_true]
    rw [commitEq_iff]
    exact ⟨rfl, rfl, rfl, rfl, rfl, rfl, rfl, rfl⟩
  · intro cc id1 id2 s t hst
    simp only [GitContext.from_commit_msg, GitContext.eq, commitListEq, Bool.and_true]
    rw [Bool.eq_false_iff, Ne, commitEq_iff]
    rintro ⟨hmsg, -⟩
    exact hst (congrArg GitCommitMessage.original hmsg)

/-- Witness for C8: contexts from different messages compare unequal. -/
theorem context_equality_structural_witness :
    GitContext.eq (GitContext.from_commit_msg "#" 0 "a")
      (GitContext.from_commit_msg "#" 1 "b") = false :=
  context_equality_structural.2.2.2 "#" 0 1 "a" "b" (by decide)

/-- C10: when the cut line occurs more than once, only the lines strictly
before the first occurrence contribute: every line of full, every body line,
and the title (when nonempty) come from the lines before the first cut line,
so the later occurrences and everything between and after them are excluded. -/
theorem repeated_cut_line_excluded (cc s : String) (pre mid post : List String)
    (hs : splitlines s = pre ++ (CUTLINE cc :: (mid ++ (CUTLINE cc :: post))))
    (hp : CUTLINE cc ∉ pre) :
    (∀ l ∈ splitlines (GitCommitMessage.from_full_message cc s).full, l ∈ pre) ∧
    (∀ l ∈ (GitCommitMessage.from_full_message cc s).body, l ∈ pre) ∧
    ((GitCommitMessage.from_full_message cc s).title ∈ pre ∨
      (GitCommitMessage.from_full_message cc s).title = "") := by
  refine ⟨full_lines_subset_of_cut cc s pre (mid ++ (CUTLINE cc :: post)) hs hp, ?_, ?_⟩
  · intro l hl
    rw [from_full_message_of_cut cc s pre (mid ++ (CUTLINE cc :: post)) hs hp] at hl
    simp only at hl
    split at hl
    · exact List.mem_of_mem_filter (List.mem_of_mem_tail hl)
    · simp at hl
  · rw [from_full_message_of_cut cc s pre (mid ++ (CUTLINE cc :: post)) hs hp]
    simp only
    split
    · next hlen =>
      left
      cases hfl : pre.filter (fun line => !(startswith line cc)) with
      | nil => rw [hfl] at hlen; simp at hlen
      | cons t rest =>
        have ht : t ∈ pre.filter (fun line => !(startswith line cc)) := by
          rw [hfl]; exact List.mem_cons_self t rest
        exact List.mem_of_mem_filter ht
    · right; rfl

/-- Witness for C10: a message with two cut lines keeps only the content
before the first one. -/
theorem repeated_cut_line_excluded_witness :
    ("x" ∈ (["x"] : List String)) ∧ "x" ∈ (["x"] : List String) :=
  have h := repeated_cut_line_excluded "#"
    ("x\n" ++ CUTLINE "#" ++ "\nmid\n" ++ CUTLINE "#" ++ "\nend")
    ["x"] ["mid"] ["end"] (by decide) (by decide)
  ⟨h.1 "x" (by decide), by
    rcases h.2.2 with h3 | h3
    · exact h3
    · exact absurd h3 (by decide)⟩

/-- C1 counterexample: for the header line with an empty parent field, the
assembled commit has parents equal to the one-element list containing the
empty string — not the empty list the claim asserts. -/
theorem empty_parent_field_counterexample :
    ((GitContext.from_local_repository "#" 0 janeRepo "/repo" none).map
      (fun ctx => ctx.commits.map (fun c => c.parents))) = Except.ok [[""]] ∧
    ([""] : List String) ≠ ([] : List String) := by
  constructor
  · rfl
  · decide

/-- C1 amended: splitting an empty parent field on single spaces yields the
one-element list containing the empty string (not the empty list); the merge
flag always equals the parent count being greater than one, so an empty
parent field still gives a non-merge commit and two space-separated parent
shas give a merge commit. -/
theorem parents_split_merge_flag :
    (∀ (cc : String) (ctxId : Nat) (repo : GitRepo) (repository_path : String)
      (refspec : Option String) (ctx : GitContext),
      GitContext.from_local_repository cc ctxId repo repository_path refspec =
        Except.ok ctx →
      ∀ c ∈ ctx.commits, c.is_merge_commit = decide (c.parents.length > 1)) ∧
    ((GitContext.from_local_repository "#" 0 janeRepo "/repo" none).map
      (fun ctx => ctx.commits.map (fun c => (c.parents, c.is_merge_commit)))) =
        Except.ok [([""], false)] ∧
    ((GitContext.from_local_repository "#" 0 twoParentRepo "/repo" none).map
      (fun ctx => ctx.commits.map (fun c => (c.parents, c.is_merge_commit)))) =
        Except.ok [(["aaa", "bbb"], true)] := by
  refine ⟨?_, rfl, rfl⟩
  intro cc ctxId repo repository_path refspec ctx h c hc
  obtain ⟨shas, hshas⟩ :=
    from_local_repository_commits cc ctxId repo repository_path refspec ctx h
  exact process_shas_merge cc ctxId repo repository_path shas ctx.commits hshas c hc

/-- Witness for the amended C1 on the concrete empty-parent repository. -/
theorem parents_split_merge_flag_witness :
    janeCommit.is_merge_commit = decide (janeCommit.parents.length > 1) :=
  parents_split_merge_flag.1 "#" 0 janeRepo "/repo" none
    (GitContext.mk [janeCommit]) (by rfl) janeCommit (by decide)

/-- Helper for C3: a sequential run that returns commits never contained a
record whose header line had fewer than 4 comma-separated fields. -/
theorem process_shas_no_malformed (cc : String) (ctxId : Nat) (repo : GitRepo)
    (repository_path : String) (shas : List String) (commits : List GitCommit)
    (h : process_shas cc ctxId repo repository_path shas = Except.ok commits) :
    ∀ sha ∈ shas, ∀ raw, repo.log_record sha = ShResult.ok raw →
      ¬((splitOnChar ',' ((splitOnChar '\n' raw).headD "")).length < 4) := by
  induction shas generalizing commits with
  | nil =>
    intro sha hsha
    simp at hsha
  | cons sha0 rest ih =>
    simp only [process_shas] at h
    split at h
    · simp at h
    · next commit hcommit =>
      split at h
      · simp at h
      · next commits2 hcommits2 =>
        intro sha hsha raw hraw hlen
        rcases List.mem_cons.mp hsha with h1 | h1
        · subst h1
          rw [process_sha_malformed cc ctxId repo repository_path sha raw hraw hlen]
            at hcommit
          simp at hcommit
        · exact ih commits2 hcommits2 sha h1 raw hraw hlen

/-- C3: when the raw log record header line has fewer than 4 comma-separated
fields, the repository-based builder fails with the malformed-record error
(the ValueError of the Python tuple unpacking) which propagates to the
caller; moreover such a record is never silently skipped: a sequential
processing run containing one can never return a commit list, so no partial
context is ever produced. -/
theorem malformed_header_fails :
    (∀ (cc : String) (ctxId : Nat) (repo : GitRepo) (repository_path out raw : String),
      repo.log_latest = ShResult.ok out →
      repo.log_record (removeNewlines out) = ShResult.ok raw →
      (splitOnChar ',' ((splitOnChar '\n' raw).headD "")).length < 4 →
      GitContext.from_local_repository cc ctxId repo repository_path none =
        Except.error GitError.malformedRecord) ∧
    (∀ (cc : String) (ctxId : Nat) (repo : GitRepo) (repository_path : String)
       (shas : List String) (commits : List GitCommit) (sha raw : String),
      sha ∈ shas → repo.log_record sha = ShResult.ok raw →
      (splitOnChar ',' ((splitOnChar '\n' raw).headD "")).length < 4 →
      process_shas cc ctxId repo repository_path shas ≠ Except.ok commits) := by
  constructor
  · intro cc ctxId repo repository_path out raw hlog hrec hlen
    simp only [GitContext.from_local_repository]
    rw [hlog]
    simp only
    rw [process_shas_first_malformed cc ctxId repo repository_path (removeNewlines out) []
      (process_sha_malformed cc ctxId repo repository_path (removeNewlines out) raw hrec hlen)]
  · intro cc ctxId repo repository_path shas commits sha raw hsha hraw hlen hok
    exact process_shas_no_malformed cc ctxId repo repository_path shas commits hok
      sha hsha raw hraw hlen

/-- Witness for C3: a two-field header makes the builder fail. -/
theorem malformed_header_fails_witness :
    GitContext.from_local_repository "#" 0 malformedRepo "/repo" none =
      Except.error GitError.malformedRecord :=
  malformed_header_fails.1 "#" 0 malformedRepo "/repo" "abc\n" "name,email\nmsg"
    rfl rfl (by decide)

/-- C9: when the git invocation that resolves the commit list fails with a
stderr containing the not-a-repository marker, the builder fails with a
context error whose message contains the literal repository path and the
phrase identifying it as not a git repository, and no context is returned. -/
theorem not_a_repository_error (cc : String) (ctxId : Nat) (repo : GitRepo)
    (repository_path : String) (refspec : Option String) (full_cmd stderr : String)
    (hfail : (match refspec with
              | none => repo.log_latest
              | some r => repo.rev_list r) = ShResult.errorReturnCode full_cmd stderr)
    (hsub : substrOf "Not a git repository" (pyStrip stderr) = true) :
    GitContext.from_local_repository cc ctxId repo repository_path refspec =
      Except.error (GitError.contextError
        (repository_path ++ " is not a git repository.")) ∧
    substrOf repository_path (repository_path ++ " is not a git repository.") = true ∧
    substrOf "not a git repository"
      (repository_path ++ " is not a git repository.") = true := by
  refine ⟨?_, substrOf_self_append _ _, substrOf_append_right _ _ _ (by decide)⟩
  cases refspec with
  | none =>
    simp only at hfail
    simp only [GitContext.from_local_repository]
    rw [hfail]
    simp only [handle_error_return_code]
    rw [if_pos hsub]
  | some r =>
    simp only at hfail
    simp only [GitContext.from_local_repository]
    rw [hfail]
    simp only [handle_error_return_code]
    rw [if_pos hsub]

/-- Witness for C9 on the concrete not-a-repository responses. -/
theorem not_a_repository_error_witness :
    GitContext.from_local_repository "#" 0 notARepo "/tmp/foo" none =
      Except.error (GitError.contextError
        ("/tmp/foo" ++ " is not a git repository.")) :=
  (not_a_repository_error "#" 0 notARepo "/tmp/foo" none
    "/usr/bin/git log -1 --pretty=%H" notRepoMsg rfl (by decide)).1
